import Mathlib

/-!
Verification of the gate / capability-protocol layer documented in
`docs/notebooks/gates.ipynb` and the accompanying design specification.

The repository snapshot contains only the documentation notebook; the
protocol implementations (`cirq.decompose`, `cirq.inverse`, `cirq.qid_shape`,
`Gate.on`) live outside it.  Every definition below is therefore modelled
from the specification text, with the doc comment naming the missing code.

Capability outcomes (`Supported(result)` / `NotSupported`) are embedded as
`Option`: `some r` is `Supported(r)`, `none` is `NotSupported`.  Fallible
calls return `Except` values carrying the documented error kinds.
-/

namespace CirqSpec

/-! ## Shape Resolver (spec section 4.1) -/

/-- Error kinds of the shape resolver and diagram query. -/
inductive ShapeError where
  | CapabilityMissing
deriving DecidableEq, Repr

/-- Modelled from the spec: an operation-like value as seen by the shape
resolver, carrying the two optional sizing capabilities (`_qid_shape_` and
`_num_qubits_`, the real implementations of which are not in the snapshot).
`none` is the capability being absent / `NotSupported`. -/
structure SizedValue where
  qidShapeCap : Option (List Nat)
  numQubitsCap : Option Nat

/-- Modelled from the spec: `cirq.qid_shape` (implementation missing from
the snapshot).  If the value exposes a qid-shape capability, return it
directly; else if it exposes a qubit-count capability `n`, return a shape
of length `n` with every entry 2; else fail with `CapabilityMissing`. -/
def qid_shape (v : SizedValue) : Except ShapeError (List Nat) :=
  match v.qidShapeCap with
  | some s => .ok s
  | none =>
    match v.numQubitsCap with
    | some n => .ok (List.replicate n 2)
    | none => .error ShapeError.CapabilityMissing

/-! ## Inverse Engine (spec section 4.4)

A value is represented by its "raise to a power" capability: a function
from the exponent to `Supported(result)`/`NotSupported`. -/

/-- Error kind of the inverse engine. -/
inductive InvError where
  | NotInvertible
deriving DecidableEq, Repr

/-- Modelled from the spec: `cirq.inverse` on a single value (implementation
missing from the snapshot).  Queries the power capability at exponent `-1`;
on `Supported r` returns `r`; on `NotSupported` returns the default if one
was supplied, else fails with `NotInvertible`. -/
def inverse_one {α : Type} (pow : Int → Option α) (default : Option α) :
    Except InvError α :=
  match pow (-1) with
  | some r => .ok r
  | none =>
    match default with
    | some d => .ok d
    | none => .error InvError.NotInvertible

/-- Modelled from the spec: the element-wise inversion pass of
`cirq.inverse` on a sequence — each element inverted with no per-element
default, failing as soon as any element fails. -/
def invertAll {α : Type} (vals : List (Int → Option α)) :
    Except InvError (List α) :=
  match vals with
  | [] => .ok []
  | v :: vs =>
    match inverse_one v none with
    | .ok r =>
      match invertAll vs with
      | .ok rs => .ok (r :: rs)
      | .error e => .error e
    | .error e => .error e

/-- Modelled from the spec: `cirq.inverse` on a sequence (implementation
missing from the snapshot).  Inverts every element, then reverses the
order; if any element is not invertible the supplied default is returned
for the whole call (whole-sequence substitution), and without a default the
element's failure propagates. -/
def inverse_sequence {α : Type} (vals : List (Int → Option α))
    (default : Option (List α)) : Except InvError (List α) :=
  match invertAll vals with
  | .ok rs => .ok rs.reverse
  | .error e =>
    match default with
    | some d => .ok d
    | none => .error e

/-! ## Decomposition Engine (spec section 4.5) -/

/-- A decomposer: `operation → Supported(sequence_of_operations) | NotSupported`. -/
abbrev Decomposer (Op : Type) := Op → Option (List Op)

/-- Modelled from the spec: try a list of decomposers in order; the first
one returning `Supported` wins. -/
def firstSupported {Op : Type} : List (Decomposer Op) → Op → Option (List Op)
  | [], _ => none
  | d :: ds, op =>
    match d op with
    | some r => some r
    | none => firstSupported ds op

/-- Modelled from the spec: the expansion attempt of `cirq.decompose`
(implementation missing from the snapshot), in strict priority order —
each intercepting decomposer in sequence, then the operation's own
decomposition capability (`native`), then the fallback decomposer if
present. -/
def expandOp {Op : Type} (intercepting : List (Decomposer Op))
    (native : Decomposer Op) (fallback : Option (Decomposer Op)) :
    Decomposer Op :=
  fun op => firstSupported (intercepting ++ native :: fallback.toList) op

/-- Outcome of a decompose call: the accepted output sequence, or a
`DeadEnd` naming the unresolvable operation. -/
inductive DecomposeResult (Op : Type) where
  | ok : List Op → DecomposeResult Op
  | deadEnd : Op → DecomposeResult Op
deriving DecidableEq, Repr

/-- Modelled from the spec: the frontier rewrite loop of `cirq.decompose`
(implementation missing from the snapshot).  The frontier is consumed in
FIFO order; an operation satisfying `keep` is appended to the output, an
expandable one is replaced by its expansion inserted at the front of the
frontier, and one with no expansion is a dead end.  The engine itself is
not fuel-limited; `fuel` makes the possibly divergent loop total, with
`none` meaning the loop has not finished within `fuel` steps. -/
def decomposeLoop {Op : Type} (keep : Op → Bool) (expand : Op → Option (List Op)) :
    Nat → List Op → List Op → Option (DecomposeResult Op)
  | 0, _, _ => none
  | _ + 1, [], out => some (.ok out)
  | fuel + 1, op :: frontier, out =>
    if keep op then
      decomposeLoop keep expand fuel frontier (out ++ [op])
    else
      match expand op with
      | some newOps => decomposeLoop keep expand fuel (newOps ++ frontier) out
      | none => some (.deadEnd op)

/-- Modelled from the spec: `cirq.decompose` (implementation missing from
the snapshot).  Initialises the frontier with `rootValues` in order and an
empty output, then runs the rewrite loop with the priority-ordered
expansion sources. -/
def decompose {Op : Type} (rootValues : List Op) (keep : Op → Bool)
    (intercepting : List (Decomposer Op)) (native : Decomposer Op)
    (fallback : Option (Decomposer Op)) (fuel : Nat) :
    Option (DecomposeResult Op) :=
  decomposeLoop keep (expandOp intercepting native fallback) fuel rootValues []

/-! ## Gate application (notebook cells 0–1) -/

/-- Modelled from the spec: a gate identified by its shape (per-operand
dimension list, spec section 3). -/
structure Gate where
  shape : List Nat
deriving DecidableEq, Repr

/-- Modelled from the spec: an operation value — a pair of a gate and an
ordered sequence of operand identities (spec section 3). -/
structure Operation (Q : Type) where
  gate : Gate
  operands : List Q
deriving DecidableEq, Repr

/-- Modelled from the spec: `Gate.on` (implementation missing from the
snapshot) — applying a gate to operand identities yields the `Operation`
pairing them, subject to the data-model invariant that the operand count
matches the shape's length and operands are pairwise distinct. -/
def Gate.on {Q : Type} [DecidableEq Q] (g : Gate) (qs : List Q) :
    Option (Operation Q) :=
  if qs.length = g.shape.length ∧ qs.Nodup then some ⟨g, qs⟩ else none

/-- Modelled from the spec: calling the gate directly on the qubits
(`Gate.__call__`, implementation missing from the snapshot), the notebook's
alternative to `Gate.on`, delegating to it. -/
def Gate.call {Q : Type} [DecidableEq Q] (g : Gate) (qs : List Q) :
    Option (Operation Q) :=
  Gate.on g qs

/-! ## Concrete instances used by the examples and witnesses -/

/-- A tiny gate universe for the decomposition examples: a 3-operand gate
`g3` whose native decomposition yields the 2-operand gates `g2a` and `g2b`. -/
inductive GateEx where
  | g3
  | g2a
  | g2b
deriving DecidableEq, Repr

/-- Operand count of each example gate. -/
def arityEx : GateEx → Nat
  | .g3 => 3
  | .g2a => 2
  | .g2b => 2

/-- The example `keep` predicate: admit gates with at most two operands. -/
def keepEx (g : GateEx) : Bool :=
  decide (arityEx g ≤ 2)

/-- The example native decomposition capability: `g3` expands to
`[g2a, g2b]`; the 2-operand gates expose no decomposition. -/
def nativeEx : GateEx → Option (List GateEx)
  | .g3 => some [.g2a, .g2b]
  | .g2a => none
  | .g2b => none

/-- Rank used to exhibit a well-founded expansion order on `GateEx`. -/
def rankEx (g : GateEx) : Nat :=
  arityEx g

/-- A one-element universe whose sole operation decomposes to itself: the
canonical decomposition cycle. -/
inductive CycOp where
  | c
deriving DecidableEq, Repr

/-- The cyclic `keep` predicate: nothing is acceptable as-is. -/
def keepCyc (_ : CycOp) : Bool :=
  false

/-- The cyclic decomposition capability: `c` expands back to `[c]`. -/
def nativeCyc (_ : CycOp) : Option (List CycOp) :=
  some [CycOp.c]

/-! ## Step lemmas for the rewrite loop -/

theorem decomposeLoop_zero {Op : Type} (keep : Op → Bool)
    (expand : Op → Option (List Op)) (frontier out : List Op) :
    decomposeLoop keep expand 0 frontier out = none :=
  rfl

theorem decomposeLoop_nil {Op : Type} (keep : Op → Bool)
    (expand : Op → Option (List Op)) (fuel : Nat) (out : List Op) :
    decomposeLoop keep expand (fuel + 1) [] out = some (.ok out) :=
  rfl

theorem decomposeLoop_keep_step {Op : Type} {keep : Op → Bool}
    (expand : Op → Option (List Op)) {fuel : Nat} {op : Op} {rest out : List Op}
    (hk : keep op = true) :
    decomposeLoop keep expand (fuel + 1) (op :: rest) out =
      decomposeLoop keep expand fuel rest (out ++ [op]) := by
  show (if keep op then _ else _) = _
  rw [hk]
  simp

theorem decomposeLoop_expand_step {Op : Type} {keep : Op → Bool}
    {expand : Op → Option (List Op)} {fuel : Nat} {op : Op} {rest out newOps : List Op}
    (hk : keep op = false) (he : expand op = some newOps) :
    decomposeLoop keep expand (fuel + 1) (op :: rest) out =
      decomposeLoop keep expand fuel (newOps ++ rest) out := by
  show (if keep op then _ else _) = _
  rw [hk, he]
  simp

theorem decomposeLoop_deadEnd_step {Op : Type} {keep : Op → Bool}
    {expand : Op → Option (List Op)} {fuel : Nat} {op : Op} {rest out : List Op}
    (hk : keep op = false) (he : expand op = none) :
    decomposeLoop keep expand (fuel + 1) (op :: rest) out = some (.deadEnd op) := by
  show (if keep op then _ else _) = _
  rw [hk, he]
  simp

/-! ## Lemmas on the priority chain of decomposers -/

theorem firstSupported_eq_none {Op : Type} {ds : List (Decomposer Op)} {op : Op}
    (h : ∀ d ∈ ds, d op = none) : firstSupported ds op = none := by
  induction ds with
  | nil => rfl
  | cons d ds ih =>
    have hd : d op = none := h d (List.mem_cons_self d ds)
    show (match d op with | some r => some r | none => firstSupported ds op) = none
    rw [hd]
    exact ih fun d' hd' => h d' (List.mem_cons_of_mem d hd')

theorem firstSupported_first_wins {Op : Type} {ds1 : List (Decomposer Op)}
    {d : Decomposer Op} {ds2 : List (Decomposer Op)} {op : Op} {newOps : List Op}
    (h1 : ∀ d' ∈ ds1, d' op = none) (h2 : d op = some newOps) :
    firstSupported (ds1 ++ d :: ds2) op = some newOps := by
  induction ds1 with
  | nil =>
    show (match d op with | some r => some r | none => firstSupported ds2 op) = some newOps
    rw [h2]
  | cons e ds1 ih =>
    have he : e op = none := h1 e (List.mem_cons_self e ds1)
    show (match e op with
      | some r => some r
      | none => firstSupported (ds1 ++ d :: ds2) op) = some newOps
    rw [he]
    exact ih fun d' hd' => h1 d' (List.mem_cons_of_mem e hd')

theorem expandOp_eq_none {Op : Type} {intercepting : List (Decomposer Op)}
    {native : Decomposer Op} {fallback : Option (Decomposer Op)} {op : Op}
    (hi : ∀ d ∈ intercepting, d op = none) (hn : native op = none)
    (hf : ∀ d ∈ fallback.toList, d op = none) :
    expandOp intercepting native fallback op = none := by
  refine firstSupported_eq_none ?_
  intro d hd
  rcases List.mem_append.mp hd with hd | hd
  · exact hi d hd
  · rcases List.mem_cons.mp hd with rfl | hd
    · exact hn
    · exact hf d hd

theorem expandOp_intercept_wins {Op : Type} {ds1 : List (Decomposer Op)}
    {d : Decomposer Op} {ds2 : List (Decomposer Op)} {native : Decomposer Op}
    {fallback : Option (Decomposer Op)} {op : Op} {newOps : List Op}
    (h1 : ∀ d' ∈ ds1, d' op = none) (h2 : d op = some newOps) :
    expandOp (ds1 ++ d :: ds2) native fallback op = some newOps := by
  show firstSupported ((ds1 ++ d :: ds2) ++ native :: fallback.toList) op = some newOps
  rw [List.append_assoc, List.cons_append]
  exact firstSupported_first_wins h1 h2

/-! ## Structural lemmas for the rewrite loop -/

theorem decomposeLoop_ok_keep {Op : Type} (keep : Op → Bool)
    (expand : Op → Option (List Op)) :
    ∀ (fuel : Nat) (frontier out res : List Op),
      (∀ x ∈ out, keep x = true) →
      decomposeLoop keep expand fuel frontier out = some (.ok res) →
      ∀ x ∈ res, keep x = true := by
  intro fuel
  induction fuel with
  | zero =>
    intro frontier out res _ h
    rw [decomposeLoop_zero] at h
    exact absurd h (by simp)
  | succ n ih =>
    intro frontier out res hout h
    cases frontier with
    | nil =>
      rw [decomposeLoop_nil] at h
      have : out = res := by
        simpa using h
      subst this
      exact hout
    | cons op rest =>
      cases hk : keep op with
      | true =>
        rw [decomposeLoop_keep_step expand hk] at h
        refine ih rest (out ++ [op]) res ?_ h
        intro x hx
        rcases List.mem_append.mp hx with hx | hx
        · exact hout x hx
        · rcases List.mem_singleton.mp hx with rfl
          exact hk
      | false =>
        cases he : expand op with
        | some newOps =>
          rw [decomposeLoop_expand_step hk he] at h
          exact ih (newOps ++ rest) out res hout h
        | none =>
          rw [decomposeLoop_deadEnd_step hk he] at h
          exact absurd h (by simp)

theorem decomposeLoop_all_keep {Op : Type} (keep : Op → Bool)
    (expand : Op → Option (List Op)) :
    ∀ (frontier : List Op) (fuel : Nat) (out : List Op),
      frontier.length < fuel → (∀ x ∈ frontier, keep x = true) →
      decomposeLoop keep expand fuel frontier out = some (.ok (out ++ frontier)) := by
  intro frontier
  induction frontier with
  | nil =>
    intro fuel out hf _
    cases fuel with
    | zero => exact absurd hf (by simp)
    | succ n => simpa using decomposeLoop_nil keep expand n out
  | cons op rest ih =>
    intro fuel out hf hall
    cases fuel with
    | zero => exact absurd hf (by simp)
    | succ n =>
      have hk : keep op = true := hall op (List.mem_cons_self op rest)
      rw [decomposeLoop_keep_step expand hk]
      have hn : rest.length < n := by
        simpa using Nat.lt_of_succ_lt_succ hf
      have := ih n (out ++ [op]) hn fun x hx => hall x (List.mem_cons_of_mem op hx)
      simpa using this

theorem decomposeLoop_mono {Op : Type} (keep : Op → Bool)
    (expand : Op → Option (List Op)) :
    ∀ (fuel : Nat) (frontier out : List Op) (r : DecomposeResult Op) (k : Nat),
      decomposeLoop keep expand fuel frontier out = some r →
      decomposeLoop keep expand (fuel + k) frontier out = some r := by
  intro fuel
  induction fuel with
  | zero =>
    intro frontier out r k h
    rw [decomposeLoop_zero] at h
    exact absurd h (by simp)
  | succ n ih =>
    intro frontier out r k h
    have hsk : n + 1 + k = (n + k) + 1 := by omega
    rw [hsk]
    cases frontier with
    | nil =>
      rw [decomposeLoop_nil] at h
      rw [decomposeLoop_nil]
      exact h
    | cons op rest =>
      cases hk : keep op with
      | true =>
        rw [decomposeLoop_keep_step expand hk] at h
        rw [decomposeLoop_keep_step expand hk]
        exact ih rest (out ++ [op]) r k h
      | false =>
        cases he : expand op with
        | some newOps =>
          rw [decomposeLoop_expand_step hk he] at h
          rw [decomposeLoop_expand_step hk he]
          exact ih (newOps ++ rest) out r k h
        | none =>
          rw [decomposeLoop_deadEnd_step hk he] at h
          rw [decomposeLoop_deadEnd_step hk he]
          exact h

theorem decomposeLoop_append_ok {Op : Type} (keep : Op → Bool)
    (expand : Op → Option (List Op)) :
    ∀ (fuel1 : Nat) (F1 out mid : List Op) (fuel2 : Nat) (F2 : List Op)
      (r : DecomposeResult Op),
      decomposeLoop keep expand fuel1 F1 out = some (.ok mid) →
      decomposeLoop keep expand fuel2 F2 mid = some r →
      decomposeLoop keep expand (fuel1 + fuel2) (F1 ++ F2) out = some r := by
  intro fuel1
  induction fuel1 with
  | zero =>
    intro F1 out mid fuel2 F2 r h1 _
    rw [decomposeLoop_zero] at h1
    exact absurd h1 (by simp)
  | succ n ih =>
    intro F1 out mid fuel2 F2 r h1 h2
    cases F1 with
    | nil =>
      rw [decomposeLoop_nil] at h1
      have : out = mid := by simpa using h1
      subst this
      have h3 := decomposeLoop_mono keep expand fuel2 F2 out r (n + 1) h2
      rw [List.nil_append, Nat.add_comm (n + 1) fuel2]
      exact h3
    | cons op rest =>
      have hsk : n + 1 + fuel2 = (n + fuel2) + 1 := by omega
      rw [hsk, List.cons_append]
      cases hk : keep op with
      | true =>
        rw [decomposeLoop_keep_step expand hk] at h1
        rw [decomposeLoop_keep_step expand hk]
        exact ih rest (out ++ [op]) mid fuel2 F2 r h1 h2
      | false =>
        cases he : expand op with
        | some newOps =>
          rw [decomposeLoop_expand_step hk he] at h1
          rw [decomposeLoop_expand_step hk he]
          have := ih (newOps ++ rest) out mid fuel2 F2 r h1 h2
          simpa [List.append_assoc] using this
        | none =>
          rw [decomposeLoop_deadEnd_step hk he] at h1
          exact absurd h1 (by simp)

theorem decomposeLoop_append_deadEnd {Op : Type} (keep : Op → Bool)
    (expand : Op → Option (List Op)) :
    ∀ (fuel : Nat) (F1 out : List Op) (o : Op) (F2 : List Op),
      decomposeLoop keep expand fuel F1 out = some (.deadEnd o) →
      decomposeLoop keep expand fuel (F1 ++ F2) out = some (.deadEnd o) := by
  intro fuel
  induction fuel with
  | zero =>
    intro F1 out o F2 h
    rw [decomposeLoop_zero] at h
    exact absurd h (by simp)
  | succ n ih =>
    intro F1 out o F2 h
    cases F1 with
    | nil =>
      rw [decomposeLoop_nil] at h
      exact absurd h (by simp)
    | cons op rest =>
      rw [List.cons_append]
      cases hk : keep op with
      | true =>
        rw [decomposeLoop_keep_step expand hk] at h
        rw [decomposeLoop_keep_step expand hk]
        exact ih rest (out ++ [op]) o F2 h
      | false =>
        cases he : expand op with
        | some newOps =>
          rw [decomposeLoop_expand_step hk he] at h
          rw [decomposeLoop_expand_step hk he]
          have := ih (newOps ++ rest) out o F2 h
          simpa [List.append_assoc] using this
        | none =>
          rw [decomposeLoop_deadEnd_step hk he] at h
          rw [decomposeLoop_deadEnd_step hk he]
          exact h

theorem decomposeLoop_list_total {Op : Type} (keep : Op → Bool)
    (expand : Op → Option (List Op)) :
    ∀ (L : List Op),
      (∀ x ∈ L, ∀ acc : List Op,
        ∃ fuel res, decomposeLoop keep expand fuel [x] acc = some res) →
      ∀ acc : List Op, ∃ fuel res, decomposeLoop keep expand fuel L acc = some res := by
  intro L
  induction L with
  | nil =>
    intro _ acc
    exact ⟨1, .ok acc, decomposeLoop_nil keep expand 0 acc⟩
  | cons x L ih =>
    intro hall acc
    obtain ⟨fuel1, r1, h1⟩ := hall x (List.mem_cons_self x L) acc
    cases r1 with
    | ok mid =>
      obtain ⟨fuel2, r2, h2⟩ :=
        ih (fun y hy => hall y (List.mem_cons_of_mem x hy)) mid
      refine ⟨fuel1 + fuel2, r2, ?_⟩
      have := decomposeLoop_append_ok keep expand fuel1 [x] acc mid fuel2 L r2 h1 h2
      simpa using this
    | deadEnd o =>
      refine ⟨fuel1, .deadEnd o, ?_⟩
      have := decomposeLoop_append_deadEnd keep expand fuel1 [x] acc o L h1
      simpa using this

theorem decomposeLoop_single_total {Op : Type} (keep : Op → Bool)
    (expand : Op → Option (List Op)) (r : Op → Op → Prop) (hwf : WellFounded r)
    (hcompat : ∀ op l x, keep op = false → expand op = some l → x ∈ l → r x op) :
    ∀ (op : Op) (acc : List Op),
      ∃ fuel res, decomposeLoop keep expand fuel [op] acc = some res := by
  intro op
  refine @WellFounded.induction Op r hwf
    (fun op => ∀ acc : List Op,
      ∃ fuel res, decomposeLoop keep expand fuel [op] acc = some res) op ?_
  intro x IH acc
  cases hk : keep x with
  | true =>
    refine ⟨2, .ok (acc ++ [x]), ?_⟩
    show decomposeLoop keep expand (1 + 1) (x :: []) acc = _
    rw [decomposeLoop_keep_step expand hk]
    exact decomposeLoop_nil keep expand 0 (acc ++ [x])
  | false =>
    cases he : expand x with
    | none =>
      refine ⟨1, .deadEnd x, ?_⟩
      show decomposeLoop keep expand (0 + 1) (x :: []) acc = _
      exact decomposeLoop_deadEnd_step hk he
    | some newOps =>
      have hnew : ∀ y ∈ newOps, ∀ acc : List Op,
          ∃ fuel res, decomposeLoop keep expand fuel [y] acc = some res :=
        fun y hy => IH y (hcompat x newOps y hk he hy)
      obtain ⟨fuel2, res, h2⟩ :=
        decomposeLoop_list_total keep expand newOps hnew acc
      refine ⟨fuel2 + 1, res, ?_⟩
      rw [decomposeLoop_expand_step hk he]
      simpa using h2

theorem decomposeLoop_total {Op : Type} (keep : Op → Bool)
    (expand : Op → Option (List Op)) (r : Op → Op → Prop) (hwf : WellFounded r)
    (hcompat : ∀ op l x, keep op = false → expand op = some l → x ∈ l → r x op) :
    ∀ (roots acc : List Op),
      ∃ fuel res, decomposeLoop keep expand fuel roots acc = some res := by
  intro roots acc
  exact decomposeLoop_list_total keep expand roots
    (fun x _ => decomposeLoop_single_total keep expand r hwf hcompat x) acc

theorem decomposeLoop_cycle_none {Op : Type} (keep : Op → Bool)
    (expand : Op → Option (List Op)) (S : Op → Prop)
    (hS : ∀ o, S o → keep o = false ∧ ∃ o' l, expand o = some (o' :: l) ∧ S o') :
    ∀ (fuel : Nat) (op : Op) (rest out : List Op),
      S op → decomposeLoop keep expand fuel (op :: rest) out = none := by
  intro fuel
  induction fuel with
  | zero =>
    intro op rest out _
    exact decomposeLoop_zero keep expand (op :: rest) out
  | succ n ih =>
    intro op rest out hop
    obtain ⟨hk, o', l, he, ho'⟩ := hS op hop
    rw [decomposeLoop_expand_step hk he]
    exact ih o' (l ++ rest) out ho'

/-! ## Lemmas on the inverse engine -/

theorem inverse_one_of_pow {α : Type} {pow : Int → Option α} {r : α}
    (h : pow (-1) = some r) (default : Option α) :
    inverse_one pow default = .ok r := by
  show (match pow (-1) with
    | some r => Except.ok r
    | none => match default with
      | some d => Except.ok d
      | none => Except.error InvError.NotInvertible) = Except.ok r
  rw [h]

theorem inverse_one_not_supported {α : Type} {pow : Int → Option α}
    (h : pow (-1) = none) (default : Option α) :
    inverse_one pow default =
      match default with
      | some d => .ok d
      | none => .error InvError.NotInvertible := by
  show (match pow (-1) with
    | some r => Except.ok r
    | none => match default with
      | some d => Except.ok d
      | none => Except.error InvError.NotInvertible) = _
  rw [h]

theorem invertAll_cons {α : Type} (v : Int → Option α) (vs : List (Int → Option α)) :
    invertAll (v :: vs) =
      match inverse_one v none with
      | .ok r =>
        match invertAll vs with
        | .ok rs => .ok (r :: rs)
        | .error e => .error e
      | .error e => .error e :=
  rfl

theorem invertAll_of_forall2 {α : Type} {vals : List (Int → Option α)} {rs : List α}
    (h : List.Forall₂ (fun v r => inverse_one v none = .ok r) vals rs) :
    invertAll vals = .ok rs := by
  induction h with
  | nil => rfl
  | cons hvr _ ih =>
    rw [invertAll_cons, hvr, ih]

theorem invertAll_not_invertible {α : Type} (vals : List (Int → Option α))
    (h : ∃ v ∈ vals, v (-1) = none) :
    invertAll vals = .error InvError.NotInvertible := by
  induction vals with
  | nil =>
    obtain ⟨v, hv, _⟩ := h
    exact absurd hv (by simp)
  | cons w vs ih =>
    rw [invertAll_cons]
    obtain ⟨v, hv, hnone⟩ := h
    rcases List.mem_cons.mp hv with rfl | hv
    · rw [inverse_one_not_supported hnone none]
    · cases hw : inverse_one w none with
      | ok r => rw [ih ⟨v, hv, hnone⟩]
      | error e => cases e; rfl

/-! ## Claim theorems -/

/-- C6: for every operation-like value, the shape resolver returns the
qid-shape capability's result unmodified when that capability is present;
with only a qubit-count capability `n` it returns a shape of length `n`
with every entry 2; with neither capability it fails with
`CapabilityMissing`. -/
theorem C6_shape_resolver (v : SizedValue) :
    (∀ s, v.qidShapeCap = some s → qid_shape v = .ok s) ∧
    (∀ n, v.qidShapeCap = none → v.numQubitsCap = some n →
      qid_shape v = .ok (List.replicate n 2)) ∧
    (v.qidShapeCap = none → v.numQubitsCap = none →
      qid_shape v = .error ShapeError.CapabilityMissing) := by
  refine ⟨?_, ?_, ?_⟩
  · intro s hs
    simp [qid_shape, hs]
  · intro n h1 h2
    simp [qid_shape, h1, h2]
  · intro h1 h2
    simp [qid_shape, h1, h2]

/-- Witness for C6 at concrete values: a qudit shape is passed through
unmodified, a qubit count of 2 yields `[2, 2]`, and a value with neither
capability fails with `CapabilityMissing`. -/
theorem C6_shape_resolver_witness :
    qid_shape ⟨some [3, 2], none⟩ = .ok [3, 2] ∧
    qid_shape ⟨none, some 2⟩ = .ok [2, 2] ∧
    qid_shape ⟨none, none⟩ = .error ShapeError.CapabilityMissing :=
  ⟨(C6_shape_resolver ⟨some [3, 2], none⟩).1 [3, 2] rfl,
   (C6_shape_resolver ⟨none, some 2⟩).2.1 2 rfl rfl,
   (C6_shape_resolver ⟨none, none⟩).2.2 rfl rfl⟩

/-- C7: `inverse_one` queries the power capability only at exponent `-1`
(its result depends on nothing else); on `Supported r` it returns `r`, on
`NotSupported` with a default it returns the default, and on `NotSupported`
without a default it fails with `NotInvertible`. -/
theorem C7_inverse_one {α : Type} (pow : Int → Option α) :
    (∀ r, pow (-1) = some r → ∀ default, inverse_one pow default = .ok r) ∧
    (pow (-1) = none → ∀ d, inverse_one pow (some d) = .ok d) ∧
    (pow (-1) = none → inverse_one pow none = .error InvError.NotInvertible) ∧
    (∀ pow' : Int → Option α, pow (-1) = pow' (-1) →
      ∀ default, inverse_one pow default = inverse_one pow' default) := by
  refine ⟨?_, ?_, ?_, ?_⟩
  · intro r hr default
    exact inverse_one_of_pow hr default
  · intro h d
    rw [inverse_one_not_supported h (some d)]
  · intro h
    rw [inverse_one_not_supported h none]
  · intro pow' h default
    unfold inverse_one
    rw [h]

/-- Witness for C7 at concrete capabilities: an invertible value returns
its inverse, a non-invertible value with `default = None` returns `None`
with no error, a non-invertible value without a default fails with
`NotInvertible`, and a value supporting only exponent `1` behaves exactly
like one supporting nothing. -/
theorem C7_inverse_one_witness :
    inverse_one (fun e : Int => if e = -1 then some 5 else none) none = .ok 5 ∧
    inverse_one (fun _ : Int => (none : Option (Option Nat))) (some none) = .ok none ∧
    inverse_one (fun _ : Int => (none : Option Nat)) none =
      .error InvError.NotInvertible ∧
    inverse_one (fun e : Int => if e = 1 then some 9 else none) none =
      inverse_one (fun _ : Int => (none : Option Nat)) none :=
  ⟨(C7_inverse_one (fun e : Int => if e = -1 then some 5 else none)).1 5 rfl none,
   (C7_inverse_one (fun _ : Int => (none : Option (Option Nat)))).2.1 rfl none,
   (C7_inverse_one (fun _ : Int => (none : Option Nat))).2.2.1 rfl,
   (C7_inverse_one (fun e : Int => if e = 1 then some 9 else none)).2.2.2
     (fun _ : Int => (none : Option Nat)) rfl none⟩

/-- C8: on a sequence of individually invertible values, `inverse_sequence`
returns the element-wise inverses in reversed order. -/
theorem C8_inverse_sequence_reverse {α : Type} (vals : List (Int → Option α))
    (rs : List α)
    (h : List.Forall₂ (fun v r => inverse_one v none = .ok r) vals rs) :
    inverse_sequence vals none = .ok rs.reverse := by
  show (match invertAll vals with
    | .ok rs => Except.ok rs.reverse
    | .error e =>
      match (none : Option (List α)) with
      | some d => Except.ok d
      | none => Except.error e) = Except.ok rs.reverse
  rw [invertAll_of_forall2 h]

/-- Witness for C8: `inverse_sequence [X, Y]` equals
`[inverse_one Y, inverse_one X]` — here `X` inverts to `10` and `Y` to
`20`, and the result is `[20, 10]`. -/
theorem C8_inverse_sequence_reverse_witness :
    inverse_sequence
      [fun e : Int => if e = -1 then some 10 else none,
       fun e : Int => if e = -1 then some 20 else none] none = .ok [20, 10] :=
  C8_inverse_sequence_reverse
    [fun e : Int => if e = -1 then some 10 else none,
     fun e : Int => if e = -1 then some 20 else none] [10, 20]
    (List.Forall₂.cons rfl (List.Forall₂.cons rfl List.Forall₂.nil))

/-- C9: when some element of the sequence is not invertible,
`inverse_sequence` with a default returns that default as the whole call's
result, and without a default it fails with the element's
`NotInvertible` failure. -/
theorem C9_inverse_sequence_default {α : Type} (vals : List (Int → Option α))
    (hbad : ∃ v ∈ vals, v (-1) = none) :
    (∀ d, inverse_sequence vals (some d) = .ok d) ∧
    inverse_sequence vals none = .error InvError.NotInvertible := by
  have hall := invertAll_not_invertible vals hbad
  constructor
  · intro d
    show (match invertAll vals with
      | .ok rs => Except.ok rs.reverse
      | .error e =>
        match some d with
        | some d => Except.ok d
        | none => Except.error e) = Except.ok d
    rw [hall]
  · show (match invertAll vals with
      | .ok rs => Except.ok rs.reverse
      | .error e =>
        match (none : Option (List α)) with
        | some d => Except.ok d
        | none => Except.error e) = Except.error InvError.NotInvertible
    rw [hall]

/-- Witness for C9: a two-element sequence whose first element inverts to
`7` and whose second is not invertible yields the whole-sequence default
`[99]` (not a per-element substitution), and fails with `NotInvertible`
when no default is supplied. -/
theorem C9_inverse_sequence_default_witness :
    inverse_sequence
      [fun e : Int => if e = -1 then some 7 else none,
       fun _ : Int => (none : Option Nat)] (some [99]) = .ok [99] ∧
    inverse_sequence
      [fun e : Int => if e = -1 then some 7 else none,
       fun _ : Int => (none : Option Nat)] none =
      .error InvError.NotInvertible :=
  ⟨(C9_inverse_sequence_default
      [fun e : Int => if e = -1 then some 7 else none,
       fun _ : Int => (none : Option Nat)]
      ⟨fun _ : Int => (none : Option Nat), by simp, rfl⟩).1 [99],
   (C9_inverse_sequence_default
      [fun e : Int => if e = -1 then some 7 else none,
       fun _ : Int => (none : Option Nat)]
      ⟨fun _ : Int => (none : Option Nat), by simp, rfl⟩).2⟩

/-- C10: applying a gate by calling it directly on valid operands produces
the same operation value as calling its `on` method, and that value is the
gate paired with the operands. -/
theorem C10_call_eq_on {Q : Type} [DecidableEq Q] (g : Gate) (qs : List Q)
    (h : qs.length = g.shape.length ∧ qs.Nodup) :
    Gate.call g qs = Gate.on g qs ∧ Gate.on g qs = some ⟨g, qs⟩ := by
  constructor
  · rfl
  · unfold Gate.on
    rw [if_pos h]

/-- Witness for C10: a CNOT-shaped two-qubit gate applied to the grid
qubits `(0, 0)` and `(0, 1)` gives the same operation through a direct
call and through `on`. -/
theorem C10_call_eq_on_witness :
    Gate.call ⟨[2, 2]⟩ [((0 : Nat), (0 : Nat)), (0, 1)] =
      Gate.on ⟨[2, 2]⟩ [((0 : Nat), (0 : Nat)), (0, 1)] ∧
    Gate.on ⟨[2, 2]⟩ [((0 : Nat), (0 : Nat)), (0, 1)] =
      some ⟨⟨[2, 2]⟩, [(0, 0), (0, 1)]⟩ :=
  C10_call_eq_on ⟨[2, 2]⟩ [(0, 0), (0, 1)] (by constructor <;> decide)

/-- C1: when the operation at the head of the frontier fails `keep` and
every expansion source — each intercepting decomposer, the operation's own
decomposition capability, and the fallback if present — returns
`NotSupported`, the whole call fails with `DeadEnd` naming that exact
operation (so it is neither dropped nor passed through to the output). -/
theorem C1_dead_end {Op : Type} (keep : Op → Bool)
    (intercepting : List (Decomposer Op)) (native : Decomposer Op)
    (fallback : Option (Decomposer Op)) (op : Op) (rest out : List Op) (fuel : Nat)
    (hk : keep op = false)
    (hi : ∀ d ∈ intercepting, d op = none)
    (hn : native op = none)
    (hf : ∀ d ∈ fallback.toList, d op = none) :
    decomposeLoop keep (expandOp intercepting native fallback) (fuel + 1)
      (op :: rest) out = some (.deadEnd op) ∧
    decompose (op :: rest) keep intercepting native fallback (fuel + 1) =
      some (.deadEnd op) := by
  have he := expandOp_eq_none hi hn hf
  exact ⟨decomposeLoop_deadEnd_step hk he, decomposeLoop_deadEnd_step hk he⟩

/-- Witness for C1: a 2-operand gate with no decomposition capability, no
interceptors and no fallback, against a `keep` rejecting everything, makes
`decompose` fail with `DeadEnd` naming that gate. -/
theorem C1_dead_end_witness :
    decomposeLoop (fun _ : GateEx => false) (expandOp [] nativeEx none) 1
      [GateEx.g2a] [] = some (.deadEnd GateEx.g2a) ∧
    decompose [GateEx.g2a] (fun _ : GateEx => false) [] nativeEx none 1 =
      some (.deadEnd GateEx.g2a) :=
  C1_dead_end (fun _ : GateEx => false) [] nativeEx none GateEx.g2a [] [] 0 rfl
    (by simp) rfl (by simp)

/-- C2: expansion sources are consulted in strict priority order — the
first intercepting decomposer returning `Supported` wins over the rest and
over the native capability and fallback; the native capability is consulted
only after every interceptor declined, the fallback only after the native
capability also declined — and the winning result is what replaces the
operation at the front of the frontier. -/
theorem C2_priority_order {Op : Type} (native : Decomposer Op)
    (fallback : Option (Decomposer Op)) (op : Op) :
    (∀ (ds1 : List (Decomposer Op)) (d : Decomposer Op) (ds2 : List (Decomposer Op))
        (newOps : List Op), (∀ d' ∈ ds1, d' op = none) → d op = some newOps →
      expandOp (ds1 ++ d :: ds2) native fallback op = some newOps) ∧
    (∀ (ds : List (Decomposer Op)) (newOps : List Op),
      (∀ d' ∈ ds, d' op = none) → native op = some newOps →
      expandOp ds native fallback op = some newOps) ∧
    (∀ (ds : List (Decomposer Op)) (fb : Decomposer Op),
      (∀ d' ∈ ds, d' op = none) → native op = none → fallback = some fb →
      expandOp ds native fallback op = fb op) ∧
    (∀ (keep : Op → Bool) (expand : Op → Option (List Op)) (fuel : Nat)
        (rest out newOps : List Op),
      keep op = false → expand op = some newOps →
      decomposeLoop keep expand (fuel + 1) (op :: rest) out =
        decomposeLoop keep expand fuel (newOps ++ rest) out) := by
  refine ⟨?_, ?_, ?_, ?_⟩
  · intro ds1 d ds2 newOps h1 h2
    exact expandOp_intercept_wins h1 h2
  · intro ds newOps hds hn
    exact firstSupported_first_wins hds hn
  · intro ds fb hds hn hfb
    subst hfb
    cases hr : fb op with
    | some r =>
      have hall : ∀ d' ∈ ds ++ [native], d' op = none := by
        intro d' hd'
        rcases List.mem_append.mp hd' with hd' | hd'
        · exact hds d' hd'
        · rcases List.mem_singleton.mp hd' with rfl
          exact hn
      have h := @firstSupported_first_wins Op (ds ++ [native]) fb [] op r hall hr
      show firstSupported (ds ++ native :: (some fb).toList) op = some r
      simpa using h
    | none =>
      refine expandOp_eq_none hds hn ?_
      intro d' hd'
      have : d' = fb := by simpa using hd'
      rw [this]
      exact hr
  · intro keep expand fuel rest out newOps hk he
    exact decomposeLoop_expand_step hk he

/-- Witness for C2: an interceptor returning `[g2b]` for the 3-operand gate
beats that gate's native decomposition `[g2a, g2b]`: the expansion takes
the interceptor's result, the frontier is rewritten with it, and the final
output of the call is the interceptor's result, not the native one. -/
theorem C2_priority_order_witness :
    expandOp [fun g : GateEx => if g = GateEx.g3 then some [GateEx.g2b] else none]
      nativeEx none GateEx.g3 = some [GateEx.g2b] ∧
    decomposeLoop keepEx
      (expandOp [fun g : GateEx => if g = GateEx.g3 then some [GateEx.g2b] else none]
        nativeEx none) (1 + 1) (GateEx.g3 :: []) [] =
      decomposeLoop keepEx
        (expandOp [fun g : GateEx => if g = GateEx.g3 then some [GateEx.g2b] else none]
          nativeEx none) 1 ([GateEx.g2b] ++ []) [] ∧
    decompose [GateEx.g3] keepEx
      [fun g : GateEx => if g = GateEx.g3 then some [GateEx.g2b] else none]
      nativeEx none 3 = some (.ok [GateEx.g2b]) :=
  ⟨(C2_priority_order nativeEx none GateEx.g3).1 []
      (fun g : GateEx => if g = GateEx.g3 then some [GateEx.g2b] else none) []
      [GateEx.g2b] (by simp) rfl,
   (C2_priority_order nativeEx none GateEx.g3).2.2.2 keepEx
      (expandOp [fun g : GateEx => if g = GateEx.g3 then some [GateEx.g2b] else none]
        nativeEx none) 1 [] [] [GateEx.g2b] rfl rfl,
   by decide⟩

/-- C3: whenever a decompose call succeeds, every element of the returned
sequence satisfies `keep`; a winning expansion's elements are inserted, in
order, at the front of the frontier (depth-first, left-to-right); and the
3-operand example gate whose native decomposition yields two 2-operand
gates decomposes to exactly those two gates in that order. -/
theorem C3_depth_first_output :
    (∀ (Op : Type) (roots : List Op) (keep : Op → Bool)
        (intercepting : List (Decomposer Op)) (native : Decomposer Op)
        (fallback : Option (Decomposer Op)) (fuel : Nat) (res : List Op),
      decompose roots keep intercepting native fallback fuel = some (.ok res) →
      ∀ x ∈ res, keep x = true) ∧
    (∀ (Op : Type) (keep : Op → Bool) (expand : Op → Option (List Op)) (fuel : Nat)
        (op : Op) (rest out newOps : List Op),
      keep op = false → expand op = some newOps →
      decomposeLoop keep expand (fuel + 1) (op :: rest) out =
        decomposeLoop keep expand fuel (newOps ++ rest) out) ∧
    decompose [GateEx.g3] keepEx [] nativeEx none 4 =
      some (.ok [GateEx.g2a, GateEx.g2b]) := by
  refine ⟨?_, ?_, ?_⟩
  · intro Op roots keep intercepting native fallback fuel res h
    exact decomposeLoop_ok_keep keep (expandOp intercepting native fallback) fuel
      roots [] res (by simp) h
  · intro Op keep expand fuel op rest out newOps hk he
    exact decomposeLoop_expand_step hk he
  · decide

/-- Witness for C3: the concrete run `decompose [g3]` with the arity-based
`keep` yields `[g2a, g2b]`, both elements satisfy `keep`, and the first
loop step replaces `g3` by its expansion at the front of the frontier. -/
theorem C3_depth_first_output_witness :
    (∀ x ∈ [GateEx.g2a, GateEx.g2b], keepEx x = true) ∧
    decomposeLoop keepEx (expandOp [] nativeEx none) (3 + 1) (GateEx.g3 :: []) [] =
      decomposeLoop keepEx (expandOp [] nativeEx none) 3
        ([GateEx.g2a, GateEx.g2b] ++ []) [] :=
  ⟨C3_depth_first_output.1 GateEx [GateEx.g3] keepEx [] nativeEx none 4
      [GateEx.g2a, GateEx.g2b] (by decide),
   C3_depth_first_output.2.1 GateEx keepEx (expandOp [] nativeEx none) 3 GateEx.g3
      [] [] [GateEx.g2a, GateEx.g2b] rfl rfl⟩

/-- C4: decompose is the identity on input whose every element already
satisfies `keep` (no expansion is attempted for kept elements), and is
therefore idempotent: re-running it on its own successful output with the
same predicate and decomposers returns that output unchanged. -/
theorem C4_identity_idempotent :
    (∀ (Op : Type) (roots : List Op) (keep : Op → Bool)
        (intercepting : List (Decomposer Op)) (native : Decomposer Op)
        (fallback : Option (Decomposer Op)) (fuel : Nat),
      roots.length < fuel → (∀ x ∈ roots, keep x = true) →
      decompose roots keep intercepting native fallback fuel = some (.ok roots)) ∧
    (∀ (Op : Type) (roots res : List Op) (keep : Op → Bool)
        (intercepting : List (Decomposer Op)) (native : Decomposer Op)
        (fallback : Option (Decomposer Op)) (fuel fuel2 : Nat),
      decompose roots keep intercepting native fallback fuel = some (.ok res) →
      res.length < fuel2 →
      decompose res keep intercepting native fallback fuel2 = some (.ok res)) := by
  constructor
  · intro Op roots keep intercepting native fallback fuel hf hall
    have := decomposeLoop_all_keep keep (expandOp intercepting native fallback)
      roots fuel [] hf hall
    simpa [decompose] using this
  · intro Op roots res keep intercepting native fallback fuel fuel2 h hf
    have hkeep := decomposeLoop_ok_keep keep (expandOp intercepting native fallback)
      fuel roots [] res (by simp) h
    have := decomposeLoop_all_keep keep (expandOp intercepting native fallback)
      res fuel2 [] hf hkeep
    simpa [decompose] using this

/-- Witness for C4: a root list already satisfying the arity-based `keep`
comes back unchanged, and re-running decompose on the output of the
`[g3]` run returns that output unchanged. -/
theorem C4_identity_idempotent_witness :
    decompose [GateEx.g2b] keepEx [] nativeEx none 2 = some (.ok [GateEx.g2b]) ∧
    decompose [GateEx.g2a, GateEx.g2b] keepEx [] nativeEx none 3 =
      some (.ok [GateEx.g2a, GateEx.g2b]) :=
  ⟨C4_identity_idempotent.1 GateEx [GateEx.g2b] keepEx [] nativeEx none 2
      (by decide) (by decide),
   C4_identity_idempotent.2 GateEx [GateEx.g3] [GateEx.g2a, GateEx.g2b] keepEx []
      nativeEx none 4 3 (by decide) (by decide)⟩

/-- C5: when the expansion sources only shrink operations along a
well-founded order (no infinite expansion chains), the rewrite loop reaches
a result for some finite fuel on every input; and a cyclic decomposition —
a frontier head whose expansions stay inside a set of operations that keep
rejecting and re-producing members of the set — returns no result at any
fuel (non-termination), never a raised error: the engine has no cycle
detection or expansion-count cutoff. -/
theorem C5_termination_contract :
    (∀ (Op : Type) (keep : Op → Bool) (expand : Op → Option (List Op))
        (r : Op → Op → Prop), WellFounded r →
      (∀ op l x, keep op = false → expand op = some l → x ∈ l → r x op) →
      ∀ (roots acc : List Op),
        ∃ fuel res, decomposeLoop keep expand fuel roots acc = some res) ∧
    (∀ (Op : Type) (keep : Op → Bool) (expand : Op → Option (List Op)) (S : Op → Prop),
      (∀ o, S o → keep o = false ∧ ∃ o' l, expand o = some (o' :: l) ∧ S o') →
      ∀ (fuel : Nat) (op : Op) (rest out : List Op),
        S op → decomposeLoop keep expand fuel (op :: rest) out = none) :=
  ⟨fun _ keep expand r hwf hc => decomposeLoop_total keep expand r hwf hc,
   fun _ keep expand S hS => decomposeLoop_cycle_none keep expand S hS⟩

/-- Witness for C5: the arity-decreasing example terminates on `[g3]` for
some fuel, while the self-expanding operation `c` yields no result at
fuel 5 (and, by the theorem, at any fuel). -/
theorem C5_termination_contract_witness :
    (∃ fuel res,
      decomposeLoop keepEx (expandOp [] nativeEx none) fuel [GateEx.g3] [] =
        some res) ∧
    decomposeLoop keepCyc (expandOp [] nativeCyc none) 5 [CycOp.c] [] = none := by
  constructor
  · refine C5_termination_contract.1 GateEx keepEx (expandOp [] nativeEx none)
      (fun a b => rankEx a < rankEx b) (InvImage.wf rankEx Nat.lt_wfRel.wf)
      ?_ [GateEx.g3] []
    intro op l x hk he hx
    cases op with
    | g3 =>
      have hl : some [GateEx.g2a, GateEx.g2b] = some l := he
      have hl' : l = [GateEx.g2a, GateEx.g2b] := (Option.some.inj hl).symm
      subst hl'
      have hx' : x = GateEx.g2a ∨ x = GateEx.g2b := by simpa using hx
      rcases hx' with rfl | rfl <;> decide
    | g2a => simp [expandOp, firstSupported, nativeEx] at he
    | g2b => simp [expandOp, firstSupported, nativeEx] at he
  · exact C5_termination_contract.2 CycOp keepCyc (expandOp [] nativeCyc none)
      (fun o => o = CycOp.c) (fun o _ => ⟨rfl, CycOp.c, [], rfl, rfl⟩) 5 CycOp.c
      [] [] rfl

end CirqSpec
